import Mathlib

/-!
Shallow embedding of the DRTV media-resolution engine of
`src/youtube_dl/extractor/drtv.py` (`DRTVIE._real_extract` and its local
helper `decrypt_uri`), together with proofs of the specified properties.

Python strings that carry URI payloads are represented by their UTF-8 byte
lists (`List Nat`, each entry < 256); token strings, which are sliced
character-wise by the code, are represented as `List Char`.
-/

/-- Hex digit value of a character; Python `int(_, 16)` and `binascii.a2b_hex`
accept both upper and lower case. -/
def hexVal (c : Char) : Option Nat :=
  if 48 ≤ c.toNat ∧ c.toNat ≤ 57 then some (c.toNat - 48)
  else if 97 ≤ c.toNat ∧ c.toNat ≤ 102 then some (c.toNat - 87)
  else if 65 ≤ c.toNat ∧ c.toNat ≤ 70 then some (c.toNat - 55)
  else none

/-- Lower-case hex digit characters, as produced by `binascii.b2a_hex`. -/
def hexChars : List Char := "0123456789abcdef".data

def hexDigitChar (n : Nat) : Char := hexChars.getD n '0'

/-- Big-endian hex numeral of `n`, zero-padded to `k` digits. -/
def natToHexPad : Nat → Nat → List Char
  | 0, _ => []
  | k + 1, n => natToHexPad k (n / 16) ++ [hexDigitChar (n % 16)]

/-- ASCII whitespace accepted around Python int literals
(`int(' 44 ', 16)` parses). -/
def isPyWs (c : Char) : Bool :=
  c = ' ' || c = '\t' || c = '\n' || c = '\r' || c = '\x0b' || c = '\x0c'

/-- Strip surrounding whitespace, as Python `int` does. -/
def trimWs (l : List Char) : List Char :=
  ((l.dropWhile isPyWs).reverse.dropWhile isPyWs).reverse

/-- Hex digits with single underscores allowed between digits (Python
numeric-literal underscores): continuation after at least one digit. -/
def hexDigitsRest (acc : Nat) : List Char → Option Nat
  | [] => some acc
  | c :: rest =>
    if c = '_' then
      match rest with
      | [] => none
      | c2 :: rest2 =>
        match hexVal c2 with
        | some d => hexDigitsRest (16 * acc + d) rest2
        | none => none
    else
      match hexVal c with
      | some d => hexDigitsRest (16 * acc + d) rest
      | none => none

/-- At least one hex digit, then `hexDigitsRest`. -/
def hexDigitsStart : List Char → Option Nat
  | [] => none
  | c :: rest =>
    match hexVal c with
    | some d => hexDigitsRest d rest
    | none => none

/-- After a `0x`/`0X` prefix one underscore may precede the digits
(`int('0x_44', 16)` parses, `int('0x__44', 16)` does not). -/
def parseAfterPre : List Char → Option Nat
  | [] => none
  | c :: rest => if c = '_' then hexDigitsStart rest else hexDigitsStart (c :: rest)

/-- The unsigned body of a base-16 int literal: optional `0x`/`0X` prefix,
then digits. -/
def parseBody (l : List Char) : Option Nat :=
  match l with
  | c0 :: c1 :: rest =>
    if c0 = '0' ∧ (c1 = 'x' ∨ c1 = 'X') then parseAfterPre rest
    else hexDigitsStart l
  | _ => hexDigitsStart l

/-- Optional sign directly before the body. -/
def parseSign : List Char → Option Int
  | [] => none
  | c :: rest =>
    if c = '+' then (parseBody rest).map Int.ofNat
    else if c = '-' then (parseBody rest).map (fun n => -(Int.ofNat n))
    else (parseBody (c :: rest)).map Int.ofNat

/-- Python `int(s, 16)` on the ASCII character set: optional surrounding
whitespace, optional sign, optional `0x`/`0X` prefix (optionally followed
by one underscore), hex digits of either case with single underscores
between digits; `none` (ValueError) otherwise. Signed, since
`int('-44', 16)` is negative. -/
def parseHexInt (l : List Char) : Option Int := parseSign (trimWs l)

/-- Python slice stop `l[:j]` for an arbitrary (possibly negative) `j`:
a negative stop counts from the end, clamped at 0. -/
def pyTake (l : List Char) (j : Int) : List Char :=
  if j < 0 then l.take (l.length - (-j).toNat) else l.take j.toNat

/-- Python slice start `l[i:]` for an arbitrary (possibly negative) `i`. -/
def pyDrop (l : List Char) (i : Int) : List Char :=
  if i < 0 then l.drop (l.length - (-i).toNat) else l.drop i.toNat

/-- `binascii.a2b_hex`: pairs of hex digits to bytes; an odd-length or
non-hex input fails (drtv.py line 207, `hex_to_bytes`). -/
def hex_to_bytes : List Char → Option (List Nat)
  | [] => some []
  | [_] => none
  | c1 :: c2 :: rest =>
    match hexVal c1, hexVal c2 with
    | some hi, some lo => (hex_to_bytes rest).map (fun bs => (16 * hi + lo) :: bs)
    | _, _ => none

/-- `binascii.b2a_hex`. -/
def bytesToHex (bs : List Nat) : List Char :=
  bs.flatMap (fun b => [hexDigitChar (b / 16), hexDigitChar (b % 16)])

/-- UTF-8 encoding of a single code point. -/
def encodeCP (c : Nat) : List Nat :=
  if c < 128 then [c]
  else if c < 2048 then [192 + c / 64, 128 + c % 64]
  else if c < 65536 then [224 + c / 4096, 128 + c / 64 % 64, 128 + c % 64]
  else [240 + c / 262144, 128 + c / 4096 % 64, 128 + c / 64 % 64, 128 + c % 64]

/-- UTF-8 bytes of a string. -/
def strBytes (s : String) : List Nat :=
  s.data.flatMap (fun ch => encodeCP ch.toNat)

/-- A UTF-8 continuation byte. -/
def contB (b : Nat) : Bool := 128 ≤ b && b ≤ 191

/-- RFC 3629 UTF-8 validity, mirroring Python `bytes.decode('utf-8')`
success/failure. -/
def utf8Valid : List Nat → Bool
  | [] => true
  | b1 :: rest =>
    if b1 ≤ 127 then utf8Valid rest
    else
      match rest with
      | [] => false
      | b2 :: r2 =>
        if 194 ≤ b1 && b1 ≤ 223 then contB b2 && utf8Valid r2
        else
          match r2 with
          | [] => false
          | b3 :: r3 =>
            if b1 = 224 then (160 ≤ b2 && b2 ≤ 191) && contB b3 && utf8Valid r3
            else if (225 ≤ b1 && b1 ≤ 236) || b1 = 238 || b1 = 239 then
              contB b2 && contB b3 && utf8Valid r3
            else if b1 = 237 then (128 ≤ b2 && b2 ≤ 159) && contB b3 && utf8Valid r3
            else
              match r3 with
              | [] => false
              | b4 :: r4 =>
                if b1 = 240 then
                  (144 ≤ b2 && b2 ≤ 191) && contB b3 && contB b4 && utf8Valid r4
                else if 241 ≤ b1 && b1 ≤ 243 then
                  contB b2 && contB b3 && contB b4 && utf8Valid r4
                else if b1 = 244 then
                  (128 ≤ b2 && b2 ≤ 143) && contB b3 && contB b4 && utf8Valid r4
                else false

/-- Bytewise xor (aes.py `xor`). -/
def xorB (a b : List Nat) : List Nat := List.zipWith (fun x y => x ^^^ y) a b

/-- Fuel-indexed helper for `toBlocks` (structural recursion so that the
kernel can evaluate it). -/
def toBlocksF : Nat → List Nat → List (List Nat)
  | _, [] => []
  | 0, _ :: _ => []
  | fuel + 1, l => (l.take 16 ++ List.replicate (16 - l.length) 0) :: toBlocksF fuel (l.drop 16)

/-- Modelled from the spec: 16-byte block chunking used by AES-CBC
(youtube_dl/aes.py is not under src/). A partial final block is
zero-extended, as in `aes_cbc_decrypt`. -/
def toBlocks (l : List Nat) : List (List Nat) := toBlocksF l.length l

/-- Modelled from the spec: CBC-mode chaining of block decryptions
(youtube_dl/aes.py `aes_cbc_decrypt` is not under src/); the AES block
cipher itself is abstracted as `decBlock key block`. -/
def cbcDecB (decBlock : List Nat → List Nat → List Nat) (key : List Nat) :
    List (List Nat) → List Nat → List (List Nat)
  | [], _ => []
  | c :: cs, prev => xorB (decBlock key c) prev :: cbcDecB decBlock key cs c

/-- Modelled from the spec: AES-CBC decryption with the block cipher
abstracted; mirrors aes.py `aes_cbc_decrypt` (zero-extend the last partial
block, chain xor with the previous cipher block starting from the IV,
truncate to the ciphertext length). -/
def aes_cbc_decrypt (decBlock : List Nat → List Nat → List Nat)
    (data key iv : List Nat) : List Nat :=
  ((cbcDecB decBlock key (toBlocks data) iv).flatten).take data.length

/-- Modelled from the spec: CBC-mode chaining of block encryptions, used to
construct round-trip tokens (§4.1/§8 of the spec). -/
def cbcEncB (encBlock : List Nat → List Nat → List Nat) (key : List Nat) :
    List (List Nat) → List Nat → List (List Nat)
  | [], _ => []
  | b :: bs, prev =>
    let c := encBlock key (xorB b prev)
    c :: cbcEncB encBlock key bs c

/-- PKCS#7 padding to a 16-byte block boundary. -/
def pkcs7pad (bs : List Nat) : List Nat :=
  bs ++ List.replicate (16 - bs.length % 16) (16 - bs.length % 16)

/-- The static shared secret of drtv.py line 215. -/
def drtvSecret : String := ":sRBzYNXBzkKgnjj8pGtkACch"

/-- Embedding of `decrypt_uri` (drtv.py lines 210-219). The Python str
result is represented as its UTF-8 byte list: the final
`.decode('utf-8').split('?')[0]` becomes a UTF-8 validity check followed by
truncation at the first `?` byte (63). The length field is parsed with the
full Python `int(s, 16)` grammar (which can be negative, so the two slices
depending on it use Python slice semantics). `sha256` and the AES block
decryption are abstract parameters (hashlib and aes.py are outside src/). -/
def decrypt_uri (sha256 : List Nat → List Nat)
    (decBlock : List Nat → List Nat → List Nat) (e : List Char) :
    Option (List Nat) :=
  match parseHexInt ((e.drop 2).take 8) with
  | none => none
  | some n =>
    match hex_to_bytes ((pyTake e (10 + n)).drop 10) with
    | none => none
    | some data =>
      let a := pyDrop e (10 + n)
      let key := sha256 (strBytes (String.mk a ++ drtvSecret))
      match hex_to_bytes a with
      | none => none
      | some iv =>
        let decrypted := aes_cbc_decrypt decBlock data key iv
        match decrypted.getLast? with
        | none => none
        | some last =>
          let stripped :=
            if last = 0 then [] else decrypted.take (decrypted.length - last)
          if utf8Valid stripped then some (stripped.takeWhile (fun b => b ≠ 63))
          else none

/-- Token construction for the round-trip property (spec §4.1/§8): 2-char
tag, 8-hex-digit length of the hex ciphertext, hex ciphertext, hex IV; the
ciphertext is the CBC encryption (block cipher abstracted) of the
PKCS#7-padded UTF-8 plaintext under key `sha256(ivHex ++ secret)`. -/
def mkToken (sha256 : List Nat → List Nat)
    (encBlock : List Nat → List Nat → List Nat) (tag : List Char)
    (iv : List Nat) (s : String) : List Char :=
  let ivHex := bytesToHex iv
  let key := sha256 (strBytes (String.mk ivHex ++ drtvSecret))
  let cipher := (cbcEncB encBlock key (toBlocks (pkcs7pad (strBytes s))) iv).flatten
  tag ++ natToHexPad 8 (2 * cipher.length) ++ bytesToHex cipher ++ ivHex

/-- One subtitle reference of an asset's `SubtitlesList` (drtv.py 278-293). -/
structure RawSubtitle where
  Uri : Option (List Nat)
  Language : Option String
  MimeType : Option String
deriving DecidableEq

/-- One stream link of an asset (drtv.py 229-277). -/
structure RawLink where
  Uri : Option (List Nat)
  EncryptedUri : Option (List Char)
  Target : Option String
  Bitrate : Option Nat
  FileFormat : Option String
deriving DecidableEq

/-- One asset from `PrimaryAsset`/`SecondaryAssets` (drtv.py 197-293). A
missing `RestrictedToDenmark` is falsy in Python, so the field is a Bool. -/
structure RawAsset where
  Kind : Option String
  Target : Option String
  RestrictedToDenmark : Bool
  DurationInMilliseconds : Option Nat
  Links : List RawLink
  SubtitlesList : List RawSubtitle
  Uri : Option (List Nat)
deriving DecidableEq

/-- A normalized format record (the dict built at drtv.py 270-277; delegate
results use the same shape). -/
structure Format where
  url : List Nat
  format_id : String
  tbr : Option Nat
  ext : Option String
  vcodec : Option String
  preference : Option Int
deriving DecidableEq

/-- One collected subtitle entry (drtv.py 290-293). -/
structure SubEntry where
  url : List Nat
  ext : String
deriving DecidableEq

/-- Modelled from the spec: URL validation (utils.url_or_none is not under
src/) — "keeps only subtitle references with a resolvable URL" / "fails URL
validation". A valid URL starts with an accepted scheme prefix and is in
particular non-empty. -/
def urlOk (u : List Nat) : Bool :=
  (strBytes "http://").isPrefixOf u || (strBytes "https://").isPrefixOf u ||
    (strBytes "rtmp://").isPrefixOf u || (strBytes "//").isPrefixOf u

/-- Modelled from the spec: utils.url_or_none (not under src/): return the
string iff it validates as a URL. -/
def url_or_none (u : Option (List Nat)) : Option (List Nat) :=
  match u with
  | none => none
  | some s => if urlOk s then some s else none

/-- Modelled from the spec: utils.mimetype2ext (not under src/), "the
extension derived from the declared MIME type", a static lookup. -/
def mimetype2ext (m : Option String) : Option String :=
  match m with
  | none => none
  | some t =>
    ([("text/vtt", "vtt"), ("text/x-ttml", "ttml"), ("application/ttml+xml", "ttml"),
      ("text/srt", "srt")].lookup t)

/-- The static language lookup table (drtv.py 280-282). -/
def LANGS : List (String × String) := [("Danish", "da")]

/-- The subtitle collection loop body (drtv.py 283-293): keep entries with
a resolvable URL, map the declared language through `LANGS` with unknown
names passing through, default to "da" when no language is declared
(Python falsiness: a missing or empty `Language`), extension from the MIME
type or "vtt". Represented as the flat list of (code, entry) pairs in
declaration order (the Python dict-of-lists accumulates per code in the
same order). -/
def collectSubs : List RawSubtitle → List (String × SubEntry)
  | [] => []
  | s :: rest =>
    match url_or_none s.Uri with
    | none => collectSubs rest
    | some u =>
      let lang := match s.Language with
        | none => "da"
        | some l => if l = "" then "da" else l
      ((LANGS.lookup lang).getD lang,
        ⟨u, (mimetype2ext s.MimeType).getD "vtt"⟩) :: collectSubs rest

/-- Whether the asset target is an alternate-audience track (drtv.py 246). -/
def isAltTarget (asset_target : Option String) : Bool :=
  asset_target = some "SpokenSubtitles" || asset_target = some "SignLanguage" ||
    asset_target = some "VisuallyInterpreted"

/-- The preference computed at drtv.py 246-252. -/
def assetPreference (asset_target : Option String) : Option Int :=
  if isAltTarget asset_target then some (-1)
  else if asset_target = some "Default" then some 1
  else none

/-- The format id built at drtv.py 244-248: the link target (or empty
string), suffixed with the asset target for alternate-audience tracks. -/
def baseFormatId (target asset_target : Option String) : String :=
  (target.getD "") ++
    (if isAltTarget asset_target then "-" ++ asset_target.getD "" else "")

/-- The Direct (non-HDS, non-HLS) branch of the dispatcher (drtv.py
266-277): one format, the id suffixed with the bitrate when it is truthy,
vcodec "none" for audio assets. -/
def directFormat (kind : Option String) (link : RawLink) (format_id : String)
    (pref : Option Int) (uri : List Nat) : Format :=
  let fid := match link.Bitrate with
    | some b => if b ≠ 0 then format_id ++ "-" ++ toString b else format_id
    | none => format_id
  { url := uri, format_id := fid, tbr := link.Bitrate, ext := link.FileFormat,
    vcodec := if kind = some "AudioResource" then some "none" else none,
    preference := pref }

/-- The f4m query suffix appended at drtv.py 255. -/
def hdsQuery : List Nat := strBytes "?hdcore=3.3.0&plugin=aasp-3.3.0.99.43"

/-- The transport dispatch on a validated URI (drtv.py 244-277). The
segmented-manifest parsers are external collaborators, abstracted as the
delegates `f4m uri pref fid` and `m3u8 uri pref fid`. -/
def dispatchLink (f4m m3u8 : List Nat → Option Int → String → List Format)
    (kind asset_target : Option String) (link : RawLink) (uri : List Nat) :
    List Format :=
  let pref := assetPreference asset_target
  let format_id := baseFormatId link.Target asset_target
  if link.Target = some "HDS" then
    let fs := f4m (uri ++ hdsQuery) pref format_id
    if kind = some "AudioResource" then
      fs.map (fun f => { f with vcodec := some "none" })
    else fs
  else if link.Target = some "HLS" then m3u8 uri pref format_id
  else [directFormat kind link format_id pref uri]

/-- Outcome of processing one link (drtv.py 229-277): skipped silently,
skipped with the "Unable to decrypt EncryptedUri" warning, or a list of
emitted formats. -/
inductive LinkResult where
  | silentSkip : LinkResult
  | warnSkip : LinkResult
  | ok : List Format → LinkResult
deriving DecidableEq

def LinkResult.formats : LinkResult → List Format
  | .ok fs => fs
  | _ => []

/-- Processing of one link (drtv.py 229-243 feeding 244-277): a falsy
`Uri` falls back to `EncryptedUri` (missing or falsy: silent skip;
decryption failure: warning and skip), then the URI is validated with
`url_or_none` (failure: silent skip). -/
def processLinkR (sha256 : List Nat → List Nat)
    (decBlock : List Nat → List Nat → List Nat)
    (f4m m3u8 : List Nat → Option Int → String → List Format)
    (kind asset_target : Option String) (link : RawLink) : LinkResult :=
  let uri0 : Option (List Nat) := match link.Uri with
    | some u => if u = [] then none else some u
    | none => none
  match uri0 with
  | some u =>
    match url_or_none (some u) with
    | none => .silentSkip
    | some u' => .ok (dispatchLink f4m m3u8 kind asset_target link u')
  | none =>
    match link.EncryptedUri with
    | none => .silentSkip
    | some tok =>
      if tok = [] then .silentSkip
      else
        match decrypt_uri sha256 decBlock tok with
        | none => .warnSkip
        | some u =>
          match url_or_none (some u) with
          | none => .silentSkip
          | some u' => .ok (dispatchLink f4m m3u8 kind asset_target link u')

/-- Formats collected over an asset's link list, in order. -/
def processLinks (sha256 : List Nat → List Nat)
    (decBlock : List Nat → List Nat → List Nat)
    (f4m m3u8 : List Nat → Option Int → String → List Format)
    (kind asset_target : Option String) (links : List RawLink) : List Format :=
  (links.map
    (fun l => (processLinkR sha256 decBlock f4m m3u8 kind asset_target l).formats)).flatten

/-- The mutable state threaded through the asset loop (drtv.py 189-195).
`duration` is an exact rational, standing for the Python float
`DurationInMilliseconds / 1000`. -/
structure CoordState where
  thumbnail : Option (List Nat)
  duration : Option ℚ
  restricted : Bool
  formats : List Format
  subtitles : List (String × SubEntry)
deriving DecidableEq

def initCoordState : CoordState :=
  { thumbnail := none, duration := none, restricted := false,
    formats := [], subtitles := [] }

/-- Is the asset kind VideoResource or AudioResource (drtv.py 225)? -/
def isVAKind (kind : Option String) : Bool :=
  kind = some "VideoResource" || kind = some "AudioResource"

/-- One iteration of the asset loop (drtv.py 221-293): Image assets set the
thumbnail; VideoResource/AudioResource assets overwrite the duration, OR
the restriction flag, and append the formats of all their links; every
asset contributes its subtitles. -/
def stepAsset (sha256 : List Nat → List Nat)
    (decBlock : List Nat → List Nat → List Nat)
    (f4m m3u8 : List Nat → Option Int → String → List Format)
    (st : CoordState) (asset : RawAsset) : CoordState :=
  let st1 :=
    if asset.Kind = some "Image" then
      { st with thumbnail := url_or_none asset.Uri }
    else if isVAKind asset.Kind then
      { st with
        duration := asset.DurationInMilliseconds.map (fun n => (n : ℚ) / 1000),
        restricted := st.restricted || asset.RestrictedToDenmark,
        formats := st.formats ++
          processLinks sha256 decBlock f4m m3u8 asset.Kind asset.Target asset.Links }
    else st
  { st1 with subtitles := st1.subtitles ++ collectSubs asset.SubtitlesList }

/-- The whole asset loop (drtv.py 221-293). -/
def runCoordinator (sha256 : List Nat → List Nat)
    (decBlock : List Nat → List Nat → List Nat)
    (f4m m3u8 : List Nat → Option Int → String → List Format)
    (assets : List RawAsset) : CoordState :=
  assets.foldl (stepAsset sha256 decBlock f4m m3u8) initCoordState

/-- The restriction detector (drtv.py 295): raise geo-restriction iff the
format list is empty and some asset was region-restricted. -/
def detectGeoRestricted (formats : List Format) (restricted : Bool) : Bool :=
  formats.isEmpty && restricted

/-- The HLS-last stable partition (drtv.py 300-303). `check` abstracts the
external `_check_formats` liveness probe (common.py, not under src/),
which per spec §4.4 may only drop unreachable entries; Python's
`x not in formats_hls` is dict value equality. -/
def aggregate (check : List Format → List Format) (formats : List Format) :
    List Format :=
  let formats_hls := formats.filter (fun x => x.format_id.startsWith "HLS-")
  let formats' := formats.filter (fun x => !formats_hls.contains x)
  check formats' ++ formats_hls

/-- The final outcome of one resolution (drtv.py 295-315): geo-restriction
is raised before the format list is aggregated. Spec §5 takes the stable
partition as the final ordering, so the external `_sort_formats`
(common.py, not under src/) is modelled as the identity. -/
def resolveOutcome (check : List Format → List Format)
    (sha256 : List Nat → List Nat)
    (decBlock : List Nat → List Nat → List Nat)
    (f4m m3u8 : List Nat → Option Int → String → List Format)
    (assets : List RawAsset) : Except String CoordState :=
  let st := runCoordinator sha256 decBlock f4m m3u8 assets
  if detectGeoRestricted st.formats st.restricted then
    Except.error "Unfortunately, DR is not allowed to show this program outside Denmark."
  else
    Except.ok { st with formats := aggregate check st.formats }

/-! ### Helper lemmas: hex encoding and parsing -/

theorem hexVal_hexDigitChar {x : Nat} (h : x < 16) :
    hexVal (hexDigitChar x) = some x := by
  interval_cases x <;> rfl

theorem natToHexPad_length (k n : Nat) : (natToHexPad k n).length = k := by
  induction k generalizing n with
  | zero => rfl
  | succ k ih => simp [natToHexPad, ih]

theorem hexDigitChar_isHex (d : Nat) : (hexVal (hexDigitChar d)).isSome := by
  by_cases h : d < 16
  · rw [hexVal_hexDigitChar h]
    rfl
  · have hlen : hexChars.length ≤ d := by
      have h16 : hexChars.length = 16 := rfl
      omega
    rw [hexDigitChar, List.getD_eq_default hexChars '0' hlen]
    rfl

theorem natToHexPad_digits (k : Nat) :
    ∀ n : Nat, ∀ c ∈ natToHexPad k n, (hexVal c).isSome := by
  induction k with
  | zero => intro n c hc; simp [natToHexPad] at hc
  | succ k ih =>
    intro n c hc
    rw [natToHexPad] at hc
    rcases List.mem_append.mp hc with h | h
    · exact ih _ c h
    · rcases List.mem_singleton.mp h with rfl
      exact hexDigitChar_isHex _

theorem isPyWs_hexVal (c : Char) (h : isPyWs c = true) : hexVal c = none := by
  rw [isPyWs] at h
  simp only [Bool.or_eq_true, decide_eq_true_eq] at h
  rcases h with ((((rfl | rfl) | rfl) | rfl) | rfl) | rfl <;> rfl

theorem dropWhile_eq_self_of_false (p : Char → Bool) (l : List Char)
    (h : ∀ c ∈ l, p c = false) : l.dropWhile p = l := by
  cases l with
  | nil => rfl
  | cons c rest =>
    rw [List.dropWhile_cons]
    simp [h c (by simp)]

theorem trimWs_eq_self (l : List Char) (h : ∀ c ∈ l, isPyWs c = false) :
    trimWs l = l := by
  rw [trimWs, dropWhile_eq_self_of_false _ _ h,
    dropWhile_eq_self_of_false _ _ (fun c hc => h c (List.mem_reverse.mp hc))]
  exact List.reverse_reverse l

theorem hexDigitsRest_nil (acc : Nat) : hexDigitsRest acc [] = some acc := rfl

theorem hexDigitsRest_digit_one (acc : Nat) (x : Char) (d : Nat)
    (hxu : ¬ (x = '_')) (h : hexVal x = some d) :
    hexDigitsRest acc [x] = some (16 * acc + d) := by
  rw [hexDigitsRest.eq_2, if_neg hxu, h]
  rfl

theorem hexDigitsRest_digit_cons (acc : Nat) (x : Char) (xs : List Char) (d : Nat)
    (hxu : ¬ (x = '_')) (h : hexVal x = some d) :
    hexDigitsRest acc (x :: xs) = hexDigitsRest (16 * acc + d) xs := by
  cases xs with
  | nil => rw [hexDigitsRest_digit_one acc x d hxu h, hexDigitsRest_nil]
  | cons y ys => rw [hexDigitsRest.eq_3, if_neg hxu, h]

theorem hexDigitsStart_digit (c : Char) (rest : List Char) (d : Nat)
    (h : hexVal c = some d) : hexDigitsStart (c :: rest) = hexDigitsRest d rest := by
  rw [hexDigitsStart.eq_2, h]

theorem hexDigitsRest_append_digit :
    ∀ (l : List Char) (acc d : Nat) (c : Char),
      (∀ x ∈ l, (hexVal x).isSome) → hexVal c = some d →
      hexDigitsRest acc (l ++ [c]) = (hexDigitsRest acc l).map (fun a => 16 * a + d) := by
  intro l
  induction l with
  | nil =>
    intro acc d c _ hc
    have hcu : ¬ (c = '_') := by
      rintro rfl
      simp [hexVal] at hc
    rw [List.nil_append, hexDigitsRest_nil, hexDigitsRest_digit_one acc c d hcu hc]
    rfl
  | cons x xs ih =>
    intro acc d c hl hc
    rcases Option.isSome_iff_exists.mp (hl x (by simp)) with ⟨dx, hdx⟩
    have hxu : ¬ (x = '_') := by
      rintro rfl
      simp [hexVal] at hdx
    rw [List.cons_append, hexDigitsRest_digit_cons acc x (xs ++ [c]) dx hxu hdx,
      hexDigitsRest_digit_cons acc x xs dx hxu hdx]
    exact ih _ d c (fun y hy => hl y (by simp [hy])) hc

theorem hexDigitsStart_append_digit (l : List Char) (d : Nat) (c : Char)
    (hne : ¬ (l = [])) (hl : ∀ x ∈ l, (hexVal x).isSome) (hc : hexVal c = some d) :
    hexDigitsStart (l ++ [c]) = (hexDigitsStart l).map (fun a => 16 * a + d) := by
  cases l with
  | nil => exact absurd rfl hne
  | cons x xs =>
    rcases Option.isSome_iff_exists.mp (hl x (by simp)) with ⟨dx, hdx⟩
    rw [List.cons_append, hexDigitsStart_digit x (xs ++ [c]) dx hdx,
      hexDigitsStart_digit x xs dx hdx]
    exact hexDigitsRest_append_digit xs dx d c (fun y hy => hl y (by simp [hy])) hc

theorem hexDigitsStart_natToHexPad :
    ∀ (k n : Nat), 0 < k → n < 16 ^ k → hexDigitsStart (natToHexPad k n) = some n := by
  intro k
  induction k with
  | zero => intro n hk; omega
  | succ k ih =>
    intro n _ hn
    rcases Nat.eq_zero_or_pos k with rfl | hkpos
    · have hn16 : n < 16 := by simpa using hn
      have hmod : n % 16 = n := Nat.mod_eq_of_lt hn16
      show hexDigitsStart (natToHexPad 0 (n / 16) ++ [hexDigitChar (n % 16)]) = some n
      rw [show natToHexPad 0 (n / 16) = [] from rfl, List.nil_append, hmod,
        hexDigitsStart_digit _ _ n (hexVal_hexDigitChar hn16), hexDigitsRest_nil]
    · have hdiv : n / 16 < 16 ^ k := by
        apply Nat.div_lt_of_lt_mul
        rw [pow_succ] at hn
        omega
      have hmod : n % 16 < 16 := Nat.mod_lt _ (by omega)
      have hne : ¬ (natToHexPad k (n / 16) = []) := by
        intro h0
        have hl := natToHexPad_length k (n / 16)
        rw [h0] at hl
        simp at hl
        omega
      rw [natToHexPad, hexDigitsStart_append_digit _ (n % 16) _ hne
        (natToHexPad_digits k (n / 16)) (hexVal_hexDigitChar hmod),
        ih (n / 16) hkpos hdiv]
      simp [Nat.div_add_mod]

theorem parseBody_nil : parseBody [] = none := rfl

theorem parseBody_one (c0 : Char) : parseBody [c0] = hexDigitsStart [c0] := rfl

theorem parseBody_cons2 (c0 c1 : Char) (rest : List Char) :
    parseBody (c0 :: c1 :: rest) =
      (if c0 = '0' ∧ (c1 = 'x' ∨ c1 = 'X') then parseAfterPre rest
       else hexDigitsStart (c0 :: c1 :: rest)) := rfl

theorem parseSign_cons (c0 : Char) (rest : List Char) :
    parseSign (c0 :: rest) =
      (if c0 = '+' then (parseBody rest).map Int.ofNat
       else if c0 = '-' then (parseBody rest).map (fun n => -(Int.ofNat n))
       else (parseBody (c0 :: rest)).map Int.ofNat) := rfl

theorem parseSign_digits (l : List Char) (hne : ¬ (l = []))
    (hl : ∀ c ∈ l, (hexVal c).isSome) :
    parseSign l = (hexDigitsStart l).map Int.ofNat := by
  cases l with
  | nil => exact absurd rfl hne
  | cons c0 rest =>
    have h0 : (hexVal c0).isSome := hl c0 (by simp)
    have hplus : ¬ (c0 = '+') := by rintro rfl; exact absurd h0 (by decide)
    have hminus : ¬ (c0 = '-') := by rintro rfl; exact absurd h0 (by decide)
    rw [parseSign_cons, if_neg hplus, if_neg hminus]
    cases rest with
    | nil => rw [parseBody_one]
    | cons c1 rest2 =>
      have h1 : (hexVal c1).isSome := hl c1 (by simp)
      have hx : ¬ (c1 = 'x') := by rintro rfl; exact absurd h1 (by decide)
      have hX : ¬ (c1 = 'X') := by rintro rfl; exact absurd h1 (by decide)
      rw [parseBody_cons2, if_neg (by rintro ⟨-, h | h⟩ <;> [exact hx h; exact hX h])]

/-- Python `int(s, 16)` parses a zero-padded pure-hex numeral to its
value. -/
theorem parseHexInt_natToHexPad (k n : Nat) (hk : 0 < k) (hn : n < 16 ^ k) :
    parseHexInt (natToHexPad k n) = some ((n : Nat) : Int) := by
  have hdig := natToHexPad_digits k n
  have hne : ¬ (natToHexPad k n = []) := by
    intro h0
    have hl := natToHexPad_length k n
    rw [h0] at hl
    simp at hl
    omega
  have hnws : ∀ c ∈ natToHexPad k n, isPyWs c = false := by
    intro c hc
    cases hpw : isPyWs c
    · rfl
    · exfalso
      have h1 := isPyWs_hexVal c hpw
      have h2 := hdig c hc
      rw [h1] at h2
      exact absurd h2 (by decide)
  rw [parseHexInt, trimWs_eq_self _ hnws, parseSign_digits _ hne hdig,
    hexDigitsStart_natToHexPad k n hk hn]
  rfl

theorem pyTake_ofNat (l : List Char) (m : Nat) : pyTake l (m : Int) = l.take m := by
  rw [pyTake, if_neg (Int.not_ofNat_neg m)]
  simp

theorem pyDrop_ofNat (l : List Char) (m : Nat) : pyDrop l (m : Int) = l.drop m := by
  rw [pyDrop, if_neg (Int.not_ofNat_neg m)]
  simp

theorem pyTake_ten_add (l : List Char) (n : Nat) :
    (pyTake l (10 + (n : Int))).drop 10 = (l.drop 10).take n := by
  have h10 : (10 + (n : Int)) = ((10 + n : Nat) : Int) := by push_cast; ring
  rw [h10, pyTake_ofNat, List.drop_take]
  have h : 10 + n - 10 = n := by omega
  rw [h]

theorem pyDrop_ten_add (l : List Char) (n : Nat) :
    pyDrop l (10 + (n : Int)) = l.drop (10 + n) := by
  have h10 : (10 + (n : Int)) = ((10 + n : Nat) : Int) := by push_cast; ring
  rw [h10, pyDrop_ofNat]

theorem hex_to_bytes_bytesToHex :
    ∀ bs : List Nat, (∀ b ∈ bs, b < 256) → hex_to_bytes (bytesToHex bs) = some bs := by
  intro bs
  induction bs with
  | nil => intro _; rfl
  | cons b rest ih =>
    intro h
    have hb : b < 256 := h b (by simp)
    have hdiv : b / 16 < 16 := by omega
    have hmod : b % 16 < 16 := Nat.mod_lt _ (by omega)
    have hrest := ih (fun x hx => h x (by simp [hx]))
    simp only [bytesToHex, List.flatMap_cons] at *
    simp only [List.cons_append, List.nil_append, hex_to_bytes,
      hexVal_hexDigitChar hdiv, hexVal_hexDigitChar hmod, hrest]
    simp [Nat.div_add_mod, hrest]

theorem bytesToHex_length (bs : List Nat) : (bytesToHex bs).length = 2 * bs.length := by
  induction bs with
  | nil => rfl
  | cons b rest ih => simp [bytesToHex, List.flatMap_cons] at *; omega

/-! ### Helper lemmas: blocks, xor, CBC round trip, padding -/

theorem toBlocksF_congr :
    ∀ (f1 f2 : Nat) (l : List Nat), l.length ≤ f1 → l.length ≤ f2 →
      toBlocksF f1 l = toBlocksF f2 l := by
  intro f1
  induction f1 with
  | zero =>
    intro f2 l h1 _
    have : l = [] := by
      cases l with
      | nil => rfl
      | cons x xs => simp at h1
    subst this
    cases f2 <;> rfl
  | succ f1 ih =>
    intro f2 l h1 h2
    cases l with
    | nil => cases f2 <;> rfl
    | cons x xs =>
      cases f2 with
      | zero => simp at h2
      | succ f2 =>
        show _ :: toBlocksF f1 ((x :: xs).drop 16) = _ :: toBlocksF f2 ((x :: xs).drop 16)
        have hlen : (x :: xs).length = xs.length + 1 := by simp
        have hd : ((x :: xs).drop 16).length ≤ f1 := by
          simp only [List.length_drop, hlen]
          simp only [hlen] at h1
          omega
        have hd2 : ((x :: xs).drop 16).length ≤ f2 := by
          simp only [List.length_drop, hlen]
          simp only [hlen] at h2
          omega
        rw [ih f2 _ hd hd2]

theorem toBlocks_eq (l : List Nat) :
    toBlocks l = if l = [] then []
      else (l.take 16 ++ List.replicate (16 - l.length) 0) :: toBlocks (l.drop 16) := by
  cases l with
  | nil => rfl
  | cons x xs =>
    have hne : ¬ (x :: xs = []) := by simp
    rw [if_neg hne]
    show _ :: toBlocksF xs.length ((x :: xs).drop 16) = _ :: toBlocks ((x :: xs).drop 16)
    rw [toBlocks, toBlocksF_congr xs.length ((x :: xs).drop 16).length _
      (by simp only [List.length_drop, List.length_cons]; omega) (le_refl _)]

theorem toBlocks_ind (motive : List Nat → Prop) (h0 : motive [])
    (h1 : ∀ l, l ≠ [] → motive (l.drop 16) → motive l) : ∀ l, motive l := by
  intro l
  generalize hn : l.length = n
  induction n using Nat.strong_induction_on generalizing l with
  | _ n ih =>
    cases l with
    | nil => exact h0
    | cons x xs =>
      apply h1 _ (by simp)
      apply ih ((x :: xs).drop 16).length _ _ rfl
      simp only [List.length_drop, ← hn, List.length_cons]
      omega

theorem toBlocks_cons16 (b l : List Nat) (hb : b.length = 16) :
    toBlocks (b ++ l) = b :: toBlocks l := by
  rw [toBlocks_eq]
  have hne : ¬ (b ++ l = []) := by
    intro h
    have := congrArg List.length h
    simp [hb] at this
  rw [if_neg hne]
  have hlen : (b ++ l).length = 16 + l.length := by simp [hb]
  rw [List.take_left' hb, List.drop_left' hb]
  have h0 : 16 - (b.length + l.length) = 0 := by omega
  simp [h0]

theorem toBlocks_flatten (bs : List (List Nat)) (h : ∀ b ∈ bs, b.length = 16) :
    toBlocks bs.flatten = bs := by
  induction bs with
  | nil => rw [List.flatten_nil]; rfl
  | cons b rest ih =>
    rw [List.flatten_cons, toBlocks_cons16 b rest.flatten (h b (by simp))]
    rw [ih (fun x hx => h x (by simp [hx]))]

theorem flatten_toBlocks (l : List Nat) (h : l.length % 16 = 0) :
    (toBlocks l).flatten = l := by
  induction l using toBlocks_ind with
  | h0 => rfl
  | h1 l hl ih =>
    have hpos : 0 < l.length := List.length_pos.mpr hl
    have hge : 16 ≤ l.length := by omega
    have hdm : (l.drop 16).length % 16 = 0 := by
      simp only [List.length_drop]; omega
    rw [toBlocks_eq]
    rw [if_neg hl]
    have hz : 16 - l.length = 0 := by omega
    simp only [hz, List.replicate_zero, List.append_nil, List.flatten_cons, ih hdm]
    exact List.take_append_drop 16 l

theorem toBlocks_blocks (l : List Nat) (h : ∀ x ∈ l, x < 256) :
    ∀ b ∈ toBlocks l, b.length = 16 ∧ ∀ x ∈ b, x < 256 := by
  induction l using toBlocks_ind with
  | h0 => intro b hb; simp [toBlocks, toBlocksF] at hb
  | h1 l hl ih =>
    intro b hb
    have hpos : 0 < l.length := List.length_pos.mpr hl
    rw [toBlocks_eq] at hb
    simp only [if_neg hl, List.mem_cons] at hb
    rcases hb with hb | hb
    · subst hb
      constructor
      · simp only [List.length_append, List.length_take, List.length_replicate]
        omega
      · intro x hx
        rcases List.mem_append.mp hx with hx | hx
        · exact h x (List.mem_of_mem_take hx)
        · have := List.eq_of_mem_replicate hx
          omega
    · exact ih (fun x hx => h x (List.mem_of_mem_drop hx)) b hb

theorem flatten_length_16 (bs : List (List Nat)) (h : ∀ b ∈ bs, b.length = 16) :
    bs.flatten.length = 16 * bs.length := by
  induction bs with
  | nil => rfl
  | cons b rest ih =>
    simp only [List.flatten_cons, List.length_append, h b (by simp),
      ih (fun x hx => h x (by simp [hx])), List.length_cons]
    ring

theorem xorB_length (a b : List Nat) : (xorB a b).length = min a.length b.length := by
  simp [xorB]

theorem xorB_cancel :
    ∀ (a b : List Nat), a.length ≤ b.length → xorB (xorB a b) b = a := by
  intro a
  induction a with
  | nil => intro b _; rfl
  | cons x xs ih =>
    intro b hb
    match b with
    | [] => simp at hb
    | y :: ys =>
      simp only [xorB, List.zipWith_cons_cons] at *
      rw [Nat.xor_cancel_right]
      have := ih ys (by simpa using hb)
      rw [this]

theorem xorB_lt :
    ∀ (a b : List Nat), (∀ x ∈ a, x < 256) → (∀ x ∈ b, x < 256) →
      ∀ x ∈ xorB a b, x < 256 := by
  intro a
  induction a with
  | nil => intro b _ _ x hx; simp [xorB] at hx
  | cons v vs ih =>
    intro b ha hb x hx
    match b with
    | [] => simp [xorB] at hx
    | w :: ws =>
      simp only [xorB, List.zipWith_cons_cons, List.mem_cons] at hx
      rcases hx with hx | hx
      · subst hx
        have hv : v < 2 ^ 8 := ha v (by simp)
        have hw : w < 2 ^ 8 := hb w (by simp)
        exact Nat.xor_lt_two_pow hv hw
      · exact ih ws (fun z hz => ha z (by simp [hz])) (fun z hz => hb z (by simp [hz])) x hx

theorem cbcEncB_length (encBlock : List Nat → List Nat → List Nat) (key : List Nat) :
    ∀ (bs : List (List Nat)) (prev : List Nat),
      (cbcEncB encBlock key bs prev).length = bs.length := by
  intro bs
  induction bs with
  | nil => intro prev; rfl
  | cons b rest ih => intro prev; simp [cbcEncB, ih]

theorem cbcEncB_blocks (encBlock : List Nat → List Nat → List Nat) (key : List Nat)
    (henc : ∀ b, b.length = 16 → (∀ x ∈ b, x < 256) →
      (encBlock key b).length = 16 ∧ ∀ x ∈ encBlock key b, x < 256) :
    ∀ (bs : List (List Nat)) (prev : List Nat),
      (∀ b ∈ bs, b.length = 16 ∧ ∀ x ∈ b, x < 256) →
      prev.length = 16 → (∀ x ∈ prev, x < 256) →
      ∀ c ∈ cbcEncB encBlock key bs prev, c.length = 16 ∧ ∀ x ∈ c, x < 256 := by
  intro bs
  induction bs with
  | nil => intro prev _ _ _ c hc; simp [cbcEncB] at hc
  | cons b rest ih =>
    intro prev hbs hprevlen hprevlt c hc
    have hb := hbs b (by simp)
    have hxlen : (xorB b prev).length = 16 := by
      rw [xorB_length, hb.1, hprevlen]; simp
    have hxlt : ∀ x ∈ xorB b prev, x < 256 := xorB_lt b prev hb.2 hprevlt
    have hcb := henc (xorB b prev) hxlen hxlt
    simp only [cbcEncB, List.mem_cons] at hc
    rcases hc with hc | hc
    · subst hc; exact hcb
    · exact ih (encBlock key (xorB b prev))
        (fun x hx => hbs x (by simp [hx])) hcb.1 hcb.2 c hc

theorem cbcDecB_cbcEncB (encBlock decBlock : List Nat → List Nat → List Nat)
    (key : List Nat)
    (hinv : ∀ b, b.length = 16 → decBlock key (encBlock key b) = b)
    (henc : ∀ b, b.length = 16 → (∀ x ∈ b, x < 256) →
      (encBlock key b).length = 16 ∧ ∀ x ∈ encBlock key b, x < 256) :
    ∀ (bs : List (List Nat)) (prev : List Nat),
      (∀ b ∈ bs, b.length = 16 ∧ ∀ x ∈ b, x < 256) →
      prev.length = 16 → (∀ x ∈ prev, x < 256) →
      cbcDecB decBlock key (cbcEncB encBlock key bs prev) prev = bs := by
  intro bs
  induction bs with
  | nil => intro prev _ _ _; rfl
  | cons b rest ih =>
    intro prev hbs hprevlen hprevlt
    have hb := hbs b (by simp)
    have hxlen : (xorB b prev).length = 16 := by
      rw [xorB_length, hb.1, hprevlen]; simp
    have hxlt : ∀ x ∈ xorB b prev, x < 256 := xorB_lt b prev hb.2 hprevlt
    have hcb := henc (xorB b prev) hxlen hxlt
    simp only [cbcEncB, cbcDecB]
    rw [hinv (xorB b prev) hxlen]
    rw [xorB_cancel b prev (by omega)]
    rw [ih (encBlock key (xorB b prev)) (fun x hx => hbs x (by simp [hx])) hcb.1 hcb.2]

theorem pkcs7pad_length (bs : List Nat) :
    (pkcs7pad bs).length = bs.length + (16 - bs.length % 16) := by
  simp [pkcs7pad]

theorem pkcs7pad_mod (bs : List Nat) : (pkcs7pad bs).length % 16 = 0 := by
  rw [pkcs7pad_length]
  omega

theorem pkcs7pad_getLast? (bs : List Nat) :
    (pkcs7pad bs).getLast? = some (16 - bs.length % 16) := by
  have hp : 0 < 16 - bs.length % 16 := by omega
  rw [pkcs7pad, List.getLast?_append_of_ne_nil]
  · match h : (16 - bs.length % 16), hp with
    | p + 1, _ =>
      rw [List.replicate_succ']
      simp
  · intro h
    have := congrArg List.length h
    simp at this
    omega

theorem pkcs7pad_bytes (bs : List Nat) (h : ∀ x ∈ bs, x < 256) :
    ∀ x ∈ pkcs7pad bs, x < 256 := by
  intro x hx
  rcases List.mem_append.mp hx with hx | hx
  · exact h x hx
  · have := List.eq_of_mem_replicate hx
    omega

theorem char_toNat_lt (c : Char) : c.toNat < 1114112 := by
  have h := c.valid
  simp only [Char.toNat]
  rcases h with h | h
  · omega
  · exact h.2

theorem encodeCP_lt (n : Nat) (h : n < 1114112) : ∀ x ∈ encodeCP n, x < 256 := by
  intro x hx
  unfold encodeCP at hx
  split at hx
  · simp at hx; omega
  · split at hx
    · simp at hx
      rcases hx with hx | hx <;> omega
    · split at hx
      · simp at hx
        rcases hx with hx | hx | hx <;> omega
      · simp at hx
        rcases hx with hx | hx | hx | hx <;> omega

theorem strBytes_lt (s : String) : ∀ x ∈ strBytes s, x < 256 := by
  intro x hx
  rcases List.mem_flatMap.mp hx with ⟨c, _, hc⟩
  exact encodeCP_lt c.toNat (char_toNat_lt c) x hc

/-- CBC round trip at the byte level: decrypting the flattened encryption
of 16-aligned plaintext recovers the plaintext. -/
theorem aes_cbc_decrypt_roundtrip (encBlock decBlock : List Nat → List Nat → List Nat)
    (key plain iv : List Nat)
    (hinv : ∀ b, b.length = 16 → decBlock key (encBlock key b) = b)
    (henc : ∀ b, b.length = 16 → (∀ x ∈ b, x < 256) →
      (encBlock key b).length = 16 ∧ ∀ x ∈ encBlock key b, x < 256)
    (hpl : plain.length % 16 = 0) (hplb : ∀ x ∈ plain, x < 256)
    (hivlen : iv.length = 16) (hivb : ∀ x ∈ iv, x < 256) :
    aes_cbc_decrypt decBlock ((cbcEncB encBlock key (toBlocks plain) iv).flatten) key iv
      = plain := by
  have hblocks := toBlocks_blocks plain hplb
  have hcb := cbcEncB_blocks encBlock key henc (toBlocks plain) iv hblocks hivlen hivb
  have hcb16 : ∀ b ∈ cbcEncB encBlock key (toBlocks plain) iv, b.length = 16 :=
    fun b hb => (hcb b hb).1
  have htb : toBlocks ((cbcEncB encBlock key (toBlocks plain) iv).flatten)
      = cbcEncB encBlock key (toBlocks plain) iv := toBlocks_flatten _ hcb16
  have hdec : cbcDecB decBlock key (cbcEncB encBlock key (toBlocks plain) iv) iv
      = toBlocks plain :=
    cbcDecB_cbcEncB encBlock decBlock key hinv henc (toBlocks plain) iv hblocks hivlen hivb
  have hflat : (toBlocks plain).flatten = plain := flatten_toBlocks plain hpl
  have hclen : ((cbcEncB encBlock key (toBlocks plain) iv).flatten).length = plain.length := by
    rw [flatten_length_16 _ hcb16, cbcEncB_length]
    conv_rhs => rw [← hflat]
    rw [flatten_length_16 _ (fun b hb => (hblocks b hb).1)]
  rw [aes_cbc_decrypt, htb, hdec, hflat, hclen, List.take_length]

/-- Byte bound on a CBC ciphertext built from bounded blocks. -/
theorem cbcEnc_flatten_lt (encBlock : List Nat → List Nat → List Nat)
    (key plain iv : List Nat)
    (henc : ∀ b, b.length = 16 → (∀ x ∈ b, x < 256) →
      (encBlock key b).length = 16 ∧ ∀ x ∈ encBlock key b, x < 256)
    (hplb : ∀ x ∈ plain, x < 256) (hivlen : iv.length = 16) (hivb : ∀ x ∈ iv, x < 256) :
    ∀ x ∈ (cbcEncB encBlock key (toBlocks plain) iv).flatten, x < 256 := by
  intro x hx
  rcases List.mem_flatten.mp hx with ⟨b, hb, hxb⟩
  exact (cbcEncB_blocks encBlock key henc (toBlocks plain) iv
    (toBlocks_blocks plain hplb) hivlen hivb b hb).2 x hxb

theorem cbcEnc_flatten_length (encBlock : List Nat → List Nat → List Nat)
    (key plain iv : List Nat)
    (henc : ∀ b, b.length = 16 → (∀ x ∈ b, x < 256) →
      (encBlock key b).length = 16 ∧ ∀ x ∈ encBlock key b, x < 256)
    (hpl : plain.length % 16 = 0) (hplb : ∀ x ∈ plain, x < 256)
    (hivlen : iv.length = 16) (hivb : ∀ x ∈ iv, x < 256) :
    ((cbcEncB encBlock key (toBlocks plain) iv).flatten).length = plain.length := by
  have hblocks := toBlocks_blocks plain hplb
  have hcb16 : ∀ b ∈ cbcEncB encBlock key (toBlocks plain) iv, b.length = 16 :=
    fun b hb => (cbcEncB_blocks encBlock key henc (toBlocks plain) iv hblocks hivlen hivb b hb).1
  rw [flatten_length_16 _ hcb16, cbcEncB_length]
  conv_rhs => rw [← flatten_toBlocks plain hpl]
  rw [flatten_length_16 _ (fun b hb => (hblocks b hb).1)]

/-- C2: decryption round-trip. For every token framed as 2-char tag,
8-hex-digit length, hex ciphertext, hex IV, whose ciphertext is the CBC
encryption (any block cipher such that block decryption inverts block
encryption; AES-256 is one instance) of the PKCS#7-padded UTF-8 plaintext
under the key derived from the IV hex text, the shared-secret and the hash,
`decrypt_uri` returns exactly the plaintext truncated at the first `?`. -/
theorem decrypt_uri_roundtrip
    (sha256 : List Nat → List Nat) (encBlock decBlock : List Nat → List Nat → List Nat)
    (tag : List Char) (iv : List Nat) (s : String)
    (htag : tag.length = 2)
    (hivlen : iv.length = 16) (hivb : ∀ x ∈ iv, x < 256)
    (hinv : ∀ k b, b.length = 16 → decBlock k (encBlock k b) = b)
    (henc : ∀ k b, b.length = 16 → (∀ x ∈ b, x < 256) →
      (encBlock k b).length = 16 ∧ ∀ x ∈ encBlock k b, x < 256)
    (hutf : utf8Valid (strBytes s) = true)
    (hsz : 2 * (pkcs7pad (strBytes s)).length < 16 ^ 8) :
    decrypt_uri sha256 decBlock (mkToken sha256 encBlock tag iv s) =
      some ((strBytes s).takeWhile (fun b => b ≠ 63)) := by
  have hplb : ∀ x ∈ pkcs7pad (strBytes s), x < 256 := pkcs7pad_bytes _ (strBytes_lt s)
  have hpl : (pkcs7pad (strBytes s)).length % 16 = 0 := pkcs7pad_mod _
  set key := sha256 (strBytes (String.mk (bytesToHex iv) ++ drtvSecret)) with hkey
  set cipher := (cbcEncB encBlock key (toBlocks (pkcs7pad (strBytes s))) iv).flatten
    with hcipher
  have hcb : ∀ x ∈ cipher, x < 256 :=
    cbcEnc_flatten_lt encBlock key _ iv (henc key) hplb hivlen hivb
  have hclen : cipher.length = (pkcs7pad (strBytes s)).length :=
    cbcEnc_flatten_length encBlock key _ iv (henc key) hpl hplb hivlen hivb
  set A := natToHexPad 8 (2 * cipher.length) with hAdef
  set B := bytesToHex cipher with hBdef
  set C := bytesToHex iv with hCdef
  have he : mkToken sha256 encBlock tag iv s = tag ++ (A ++ (B ++ C)) := by
    rw [hAdef, hBdef, hcipher, hkey, hCdef]
    simp only [mkToken, List.append_assoc]
  have hA : A.length = 8 := natToHexPad_length 8 _
  have hd2 : (tag ++ (A ++ (B ++ C))).drop 2 = A ++ (B ++ C) := by
    rw [← htag]; exact List.drop_left _ _
  have hparse : parseHexInt A = some ((2 * cipher.length : Nat) : Int) :=
    parseHexInt_natToHexPad 8 _ (by omega) (by omega)
  have hBlen : B.length = 2 * cipher.length := bytesToHex_length cipher
  have hd10 : (tag ++ (A ++ (B ++ C))).drop 10 = B ++ C := by
    have hassoc : tag ++ (A ++ (B ++ C)) = (tag ++ A) ++ (B ++ C) := by
      simp [List.append_assoc]
    rw [hassoc]
    have hlen10 : (tag ++ A).length = 10 := by simp [htag, hA]
    exact List.drop_left' hlen10
  have htakeB : (B ++ C).take (2 * cipher.length) = B := List.take_left' hBlen
  have hdropB : (B ++ C).drop (2 * cipher.length) = C := List.drop_left' hBlen
  have hd10n : (tag ++ (A ++ (B ++ C))).drop (10 + 2 * cipher.length) = C := by
    rw [← List.drop_drop, hd10, hdropB]
  have hslice : (pyTake (tag ++ (A ++ (B ++ C)))
      (10 + ((2 * cipher.length : Nat) : Int))).drop 10 = B := by
    rw [pyTake_ten_add, hd10, htakeB]
  have hadrop : pyDrop (tag ++ (A ++ (B ++ C)))
      (10 + ((2 * cipher.length : Nat) : Int)) = C := by
    rw [pyDrop_ten_add, hd10n]
  have hdata : hex_to_bytes B = some cipher := hex_to_bytes_bytesToHex cipher hcb
  have hivgood : hex_to_bytes C = some iv := hex_to_bytes_bytesToHex iv hivb
  have hrt : aes_cbc_decrypt decBlock cipher key iv = pkcs7pad (strBytes s) := by
    rw [hcipher]
    exact aes_cbc_decrypt_roundtrip encBlock decBlock key _ iv (hinv key) (henc key)
      hpl hplb hivlen hivb
  have hlast : (pkcs7pad (strBytes s)).getLast? = some (16 - (strBytes s).length % 16) :=
    pkcs7pad_getLast? _
  have hpne : ¬ (16 - (strBytes s).length % 16 = 0) := by omega
  have hstrip : (pkcs7pad (strBytes s)).take
      ((pkcs7pad (strBytes s)).length - (16 - (strBytes s).length % 16)) = strBytes s := by
    have hl : (pkcs7pad (strBytes s)).length - (16 - (strBytes s).length % 16)
        = (strBytes s).length := by
      rw [pkcs7pad_length]; omega
    rw [hl, pkcs7pad]
    exact List.take_left _ _
  rw [he, decrypt_uri]
  simp only [hd2, List.take_left' hA, hparse, hslice, hdata, hadrop,
    hivgood, hrt, hlast, if_neg hpne, hstrip, hutf, if_pos]

/-- Witness for the round trip at the plaintext
"https URL with query", with the identity block cipher (which satisfies the
inverse hypotheses) and a constant hash. -/
theorem decrypt_uri_roundtrip_witness :
    decrypt_uri (fun _ => []) (fun _ b => b)
      (mkToken (fun _ => []) (fun _ b => b) ['0', '0'] (List.range 16)
        "https://example/video.mp4?sig=abc")
      = some (strBytes "https://example/video.mp4") := by
  have h := decrypt_uri_roundtrip (fun _ => []) (fun _ b => b) (fun _ b => b)
    ['0', '0'] (List.range 16) "https://example/video.mp4?sig=abc"
    (by decide) (by decide) (by decide)
    (fun _ _ _ => rfl)
    (fun _ b hb hlt => ⟨hb, hlt⟩)
    (by decide) (by decide)
  rw [h]
  decide

/-- C10: on a well-framed token whose decryption ends in a padding-count
byte that is 0 or at least the plaintext length, `decrypt_uri` returns the
empty string (the stripping slice discards everything), not an error. -/
theorem decrypt_uri_padding_overflow
    (sha256 : List Nat → List Nat) (decBlock : List Nat → List Nat → List Nat)
    (e : List Char) (n last : Nat) (data iv : List Nat)
    (hn : parseHexInt ((e.drop 2).take 8) = some ((n : Nat) : Int))
    (hdata : hex_to_bytes ((e.drop 10).take n) = some data)
    (hiv : hex_to_bytes (e.drop (10 + n)) = some iv)
    (hlast : (aes_cbc_decrypt decBlock data
        (sha256 (strBytes (String.mk (e.drop (10 + n)) ++ drtvSecret))) iv).getLast?
        = some last)
    (hcond : last = 0 ∨ (aes_cbc_decrypt decBlock data
        (sha256 (strBytes (String.mk (e.drop (10 + n)) ++ drtvSecret))) iv).length ≤ last) :
    decrypt_uri sha256 decBlock e = some [] := by
  rw [decrypt_uri]
  simp only [hn, pyTake_ten_add, pyDrop_ten_add, hdata, hiv, hlast]
  have hv : utf8Valid [] = true := rfl
  by_cases hl0 : last = 0
  · simp [hl0, hv]
  · have hge : (aes_cbc_decrypt decBlock data
        (sha256 (strBytes (String.mk (e.drop (10 + n)) ++ drtvSecret))) iv).length ≤ last := by
      rcases hcond with h | h
      · exact absurd h hl0
      · exact h
    have hz : (aes_cbc_decrypt decBlock data
        (sha256 (strBytes (String.mk (e.drop (10 + n)) ++ drtvSecret))) iv).length - last
        = 0 := by omega
    simp [hl0, hz, hv]

/-- A concrete well-framed token (one ciphertext block of 0xff bytes, zero
IV) whose decryption under the identity block cipher ends in byte 255. -/
def padOverflowTok : List Char :=
  ['0', '0', '0', '0', '0', '0', '0', '0', '2', '0'] ++
    List.replicate 32 'f' ++ List.replicate 32 '0'

theorem decrypt_uri_padding_overflow_witness :
    decrypt_uri (fun _ => []) (fun _ b => b) padOverflowTok = some [] := by
  exact decrypt_uri_padding_overflow (fun _ => []) (fun _ b => b) padOverflowTok
    32 255 (List.replicate 16 255) (List.replicate 16 0)
    (by decide) (by decide) (by decide) (by decide)
    (Or.inr (by decide))

theorem foldl_stepAsset_restricted (sha256 : List Nat → List Nat)
    (decBlock : List Nat → List Nat → List Nat)
    (f4m m3u8 : List Nat → Option Int → String → List Format) :
    ∀ (assets : List RawAsset) (st : CoordState),
      (assets.foldl (stepAsset sha256 decBlock f4m m3u8) st).restricted
        = (st.restricted || assets.any (fun a => isVAKind a.Kind && a.RestrictedToDenmark)) := by
  intro assets
  induction assets with
  | nil => intro st; simp
  | cons a rest ih =>
    intro st
    rw [List.foldl_cons, List.any_cons, ih]
    have hstep : (stepAsset sha256 decBlock f4m m3u8 st a).restricted
        = (st.restricted || (isVAKind a.Kind && a.RestrictedToDenmark)) := by
      by_cases h1 : a.Kind = some "Image"
      · have h2 : isVAKind a.Kind = false := by rw [h1]; rfl
        rw [h2]
        simp [stepAsset, h1]
      · by_cases h2 : isVAKind a.Kind = true
        · simp [stepAsset, h1, h2]
        · simp only [Bool.not_eq_true] at h2
          rw [h2]
          simp [stepAsset, h1, h2]
    rw [hstep, Bool.or_assoc]

theorem foldl_stepAsset_duration (sha256 : List Nat → List Nat)
    (decBlock : List Nat → List Nat → List Nat)
    (f4m m3u8 : List Nat → Option Int → String → List Format) :
    ∀ (assets : List RawAsset) (st : CoordState),
      (assets.foldl (stepAsset sha256 decBlock f4m m3u8) st).duration
        = (match (assets.filter (fun a => isVAKind a.Kind)).getLast? with
           | none => st.duration
           | some a => a.DurationInMilliseconds.map (fun n => (n : ℚ) / 1000)) := by
  intro assets
  induction assets with
  | nil => intro st; simp
  | cons a rest ih =>
    intro st
    rw [List.foldl_cons, ih]
    by_cases h2 : isVAKind a.Kind = true
    · have h1 : ¬ (a.Kind = some "Image") := by
        intro h
        rw [h] at h2
        exact absurd h2 (by decide)
      have hstep : (stepAsset sha256 decBlock f4m m3u8 st a).duration
          = a.DurationInMilliseconds.map (fun n => (n : ℚ) / 1000) := by
        simp [stepAsset, h1, h2]
      have hfc : List.filter (fun x => isVAKind x.Kind) (a :: rest)
          = a :: List.filter (fun x => isVAKind x.Kind) rest := by
        simp [List.filter_cons, h2]
      rw [hfc, List.getLast?_cons]
      rcases hlast : (rest.filter (fun a => isVAKind a.Kind)).getLast? with _ | b
      · simp [hlast, hstep]
      · simp [hlast]
    · simp only [Bool.not_eq_true] at h2
      have hstep : (stepAsset sha256 decBlock f4m m3u8 st a).duration = st.duration := by
        by_cases h1 : a.Kind = some "Image"
        · simp [stepAsset, h1]
        · simp [stepAsset, h1, h2]
      have hfc : List.filter (fun x => isVAKind x.Kind) (a :: rest)
          = List.filter (fun x => isVAKind x.Kind) rest := by
        simp [List.filter_cons, h2]
      rw [hfc, hstep]

/-- C1: the restriction detector fires iff the format list is empty and
some asset was region-restricted: the three spec cases, and at resolution
level the error outcome occurs iff the collected format list is empty and
at least one VideoResource/AudioResource asset declared the restriction. -/
theorem geo_restriction_iff :
    (∀ (formats : List Format) (restricted : Bool),
        detectGeoRestricted formats restricted = true ↔ (formats = [] ∧ restricted = true))
    ∧ (∀ (restricted : Bool), detectGeoRestricted [] restricted = restricted)
    ∧ (∀ (f : Format) (fs : List Format) (restricted : Bool),
        detectGeoRestricted (f :: fs) restricted = false)
    ∧ (∀ (check : List Format → List Format) (sha256 : List Nat → List Nat)
        (decBlock : List Nat → List Nat → List Nat)
        (f4m m3u8 : List Nat → Option Int → String → List Format)
        (assets : List RawAsset),
        (∃ msg, resolveOutcome check sha256 decBlock f4m m3u8 assets = Except.error msg) ↔
          ((runCoordinator sha256 decBlock f4m m3u8 assets).formats = [] ∧
            ∃ a ∈ assets, isVAKind a.Kind = true ∧ a.RestrictedToDenmark = true)) := by
  refine ⟨?_, ?_, ?_, ?_⟩
  · intro formats restricted
    simp [detectGeoRestricted, List.isEmpty_iff]
  · intro restricted
    simp [detectGeoRestricted]
  · intro f fs restricted
    simp [detectGeoRestricted]
  · intro check sha256 decBlock f4m m3u8 assets
    rw [resolveOutcome]
    by_cases h : detectGeoRestricted (runCoordinator sha256 decBlock f4m m3u8 assets).formats
        (runCoordinator sha256 decBlock f4m m3u8 assets).restricted = true
    · simp only [h, if_true]
      have hd := h
      rw [detectGeoRestricted, Bool.and_eq_true, List.isEmpty_iff] at hd
      have hrestr : (runCoordinator sha256 decBlock f4m m3u8 assets).restricted
          = assets.any (fun a => isVAKind a.Kind && a.RestrictedToDenmark) := by
        rw [runCoordinator, foldl_stepAsset_restricted]
        rfl
      constructor
      · intro _
        refine ⟨hd.1, ?_⟩
        have := hd.2
        rw [hrestr] at this
        rcases List.any_eq_true.mp this with ⟨a, ha, hpa⟩
        refine ⟨a, ha, ?_⟩
        simpa using hpa
      · intro _
        exact ⟨_, rfl⟩
    · simp only [h, if_false]
      constructor
      · intro ⟨msg, hmsg⟩
        exact absurd hmsg (by simp)
      · intro ⟨hfmt, a, ha, hva, hr⟩
        exfalso
        apply h
        rw [detectGeoRestricted, Bool.and_eq_true, List.isEmpty_iff]
        refine ⟨hfmt, ?_⟩
        rw [runCoordinator, foldl_stepAsset_restricted]
        show (false || _) = true
        rw [Bool.false_or]
        exact List.any_eq_true.mpr ⟨a, ha, by rw [hva, hr]; rfl⟩

/-- C7 (amended): over the VideoResource/AudioResource assets the
coordinator ORs the restriction flags, but it records the duration of the
LAST such asset (each iteration overwrites it), not the maximum. -/
theorem coordinator_restriction_or_and_last_duration :
    ∀ (sha256 : List Nat → List Nat) (decBlock : List Nat → List Nat → List Nat)
      (f4m m3u8 : List Nat → Option Int → String → List Format) (assets : List RawAsset),
      ((runCoordinator sha256 decBlock f4m m3u8 assets).restricted = true ↔
        ∃ a ∈ assets, isVAKind a.Kind = true ∧ a.RestrictedToDenmark = true)
      ∧ (runCoordinator sha256 decBlock f4m m3u8 assets).duration =
          (match (assets.filter (fun a => isVAKind a.Kind)).getLast? with
           | none => none
           | some a => a.DurationInMilliseconds.map (fun n => (n : ℚ) / 1000)) := by
  intro sha256 decBlock f4m m3u8 assets
  constructor
  · rw [runCoordinator, foldl_stepAsset_restricted]
    show (false || _) = true ↔ _
    rw [Bool.false_or, List.any_eq_true]
    constructor
    · rintro ⟨a, ha, hpa⟩
      exact ⟨a, ha, by simpa using hpa⟩
    · rintro ⟨a, ha, h1, h2⟩
      exact ⟨a, ha, by rw [h1, h2]; rfl⟩
  · rw [runCoordinator, foldl_stepAsset_duration]
    rcases h : (assets.filter (fun a => isVAKind a.Kind)).getLast? with _ | b
    · rfl
    · rfl

/-- A VideoResource asset with a given duration (ms) and no links. -/
def vaAsset (ms : Nat) : RawAsset :=
  { Kind := some "VideoResource", Target := some "Default", RestrictedToDenmark := false,
    DurationInMilliseconds := some ms, Links := [], SubtitlesList := [], Uri := none }

/-- Counterexample to C7 as stated: with a 2000 ms asset followed by a
1000 ms asset the recorded duration is 1 second (the last seen), not the
maximum 2 seconds. -/
theorem coordinator_duration_not_max :
    (runCoordinator (fun _ => []) (fun _ b => b) (fun _ _ _ => []) (fun _ _ _ => [])
        [vaAsset 2000, vaAsset 1000]).duration = some 1 ∧
    ¬ ((runCoordinator (fun _ => []) (fun _ b => b) (fun _ _ _ => []) (fun _ _ _ => [])
        [vaAsset 2000, vaAsset 1000]).duration = some 2) := by
  have h : (runCoordinator (fun _ => []) (fun _ b => b) (fun _ _ _ => []) (fun _ _ _ => [])
      [vaAsset 2000, vaAsset 1000]).duration = some ((1000 : ℚ) / 1000) := by
    simp [runCoordinator, stepAsset, vaAsset, isVAKind, initCoordState, processLinks]
  rw [h]
  norm_num

/-! ### Aggregation -/

theorem aggregate_eq (check : List Format → List Format) (formats : List Format) :
    aggregate check formats =
      check (formats.filter (fun x => !x.format_id.startsWith "HLS-"))
        ++ formats.filter (fun x => x.format_id.startsWith "HLS-") := by
  rw [aggregate]
  congr 2
  apply List.filter_congr
  intro x hx
  by_cases h : x.format_id.startsWith "HLS-"
  · have hmem : x ∈ formats.filter (fun x => x.format_id.startsWith "HLS-") :=
      List.mem_filter.mpr ⟨hx, h⟩
    have hc : (formats.filter (fun x => x.format_id.startsWith "HLS-")).contains x = true :=
      List.elem_iff.mpr hmem
    rw [hc, h]
  · have hmem : ¬ (x ∈ formats.filter (fun x => x.format_id.startsWith "HLS-")) := by
      intro hmem
      exact h (List.mem_filter.mp hmem).2
    have hc : (formats.filter (fun x => x.format_id.startsWith "HLS-")).contains x = false := by
      rw [← Bool.not_eq_true]
      intro hcontains
      exact hmem (List.elem_iff.mp hcontains)
    rw [hc]
    simp only [Bool.not_eq_true] at h
    rw [h]

/-- C4: the aggregation is a stable partition: provided the external
liveness probe only removes entries (returns a sublist), in the output
every "HLS-"-id format sits strictly after every other format, the HLS
group is exactly the input's HLS formats in input order, and the non-HLS
group preserves the input's relative order (a sublist of the input's
non-HLS formats; with the identity probe it is all of them). -/
theorem aggregate_partition (check : List Format → List Format)
    (formats : List Format)
    (hchk : ∀ l, List.Sublist (check l) l) :
    (∀ (i j : Nat) (f g : Format),
        (aggregate check formats)[i]? = some f →
        (aggregate check formats)[j]? = some g →
        f.format_id.startsWith "HLS-" = true →
        g.format_id.startsWith "HLS-" = false →
        j < i)
    ∧ (aggregate check formats).filter (fun f => f.format_id.startsWith "HLS-")
        = formats.filter (fun f => f.format_id.startsWith "HLS-")
    ∧ List.Sublist
        ((aggregate check formats).filter (fun f => !f.format_id.startsWith "HLS-"))
        (formats.filter (fun f => !f.format_id.startsWith "HLS-")) := by
  have hA : ∀ x ∈ check (formats.filter (fun x => !x.format_id.startsWith "HLS-")),
      x.format_id.startsWith "HLS-" = false := by
    intro x hxA
    have hx : x ∈ formats.filter (fun x => !x.format_id.startsWith "HLS-") :=
      (hchk _).subset hxA
    have := (List.mem_filter.mp hx).2
    simpa using this
  have hB : ∀ x ∈ formats.filter (fun x => x.format_id.startsWith "HLS-"),
      x.format_id.startsWith "HLS-" = true := by
    intro x hxB
    exact (List.mem_filter.mp hxB).2
  refine ⟨?_, ?_, ?_⟩
  · rw [aggregate_eq]
    intro i j f g hf hg hfH hgH
    have hiA : ¬ (i < (check (formats.filter (fun x => !x.format_id.startsWith "HLS-"))).length) := by
      intro hlt
      rw [List.getElem?_append_left hlt] at hf
      have hmem := List.getElem?_mem hf
      have := hA f hmem
      rw [hfH] at this
      exact absurd this (by decide)
    have hjA : j < (check (formats.filter (fun x => !x.format_id.startsWith "HLS-"))).length := by
      by_contra hge
      push_neg at hge
      rw [List.getElem?_append_right hge] at hg
      have hmem := List.getElem?_mem hg
      have := hB g hmem
      rw [hgH] at this
      exact absurd this (by decide)
    omega
  · rw [aggregate_eq, List.filter_append]
    rw [List.filter_eq_nil_iff.mpr (by intro x hx; simp [hA x hx])]
    rw [List.nil_append]
    exact List.filter_eq_self.mpr hB
  · rw [aggregate_eq, List.filter_append]
    have hBnil : (formats.filter (fun x => x.format_id.startsWith "HLS-")).filter
        (fun f => !f.format_id.startsWith "HLS-") = [] :=
      List.filter_eq_nil_iff.mpr (by intro x hx; simp [hB x hx])
    have hAfilter : (check (formats.filter (fun x => !x.format_id.startsWith "HLS-"))).filter
        (fun f => !f.format_id.startsWith "HLS-")
        = check (formats.filter (fun x => !x.format_id.startsWith "HLS-")) :=
      List.filter_eq_self.mpr (by intro x hx; simp [hA x hx])
    rw [hBnil, hAfilter, List.append_nil]
    exact hchk _

/-- A concrete HLS-id format. -/
def hlsFmt : Format :=
  { url := strBytes "http://host/hls", format_id := "HLS-1", tbr := none,
    ext := none, vcodec := none, preference := none }

/-- A concrete direct-download format. -/
def dirFmt : Format :=
  { url := strBytes "http://host/f.mp4", format_id := "Download-300", tbr := some 300,
    ext := some "mp4", vcodec := none, preference := some 1 }

theorem aggregate_partition_witness :
    (aggregate (fun l => l) [hlsFmt, dirFmt]).filter
        (fun f => f.format_id.startsWith "HLS-")
      = [hlsFmt, dirFmt].filter (fun f => f.format_id.startsWith "HLS-")
    ∧ List.Sublist
        ((aggregate (fun l => l) [hlsFmt, dirFmt]).filter
          (fun f => !f.format_id.startsWith "HLS-"))
        ([hlsFmt, dirFmt].filter (fun f => !f.format_id.startsWith "HLS-")) :=
  (aggregate_partition (fun l => l) [hlsFmt, dirFmt] (fun l => List.Sublist.refl l)).2

/-! ### Dispatcher lemmas -/

theorem urlOk_ne_nil {u : List Nat} (h : urlOk u = true) : ¬ (u = []) := by
  intro h0
  subst h0
  exact absurd h (by decide)

theorem url_or_none_some {u0 : Option (List Nat)} {u : List Nat}
    (h : url_or_none u0 = some u) : u0 = some u ∧ urlOk u = true := by
  match u0 with
  | none => simp [url_or_none] at h
  | some v =>
    rw [url_or_none] at h
    by_cases hok : urlOk v = true
    · rw [if_pos hok] at h
      cases h
      exact ⟨rfl, hok⟩
    · rw [if_neg hok] at h
      cases h

/-- If a link's plain URI is present, non-empty and validates, the link is
dispatched on exactly that URI. -/
theorem processLinkR_plain_uri (sha256 : List Nat → List Nat)
    (decBlock : List Nat → List Nat → List Nat)
    (f4m m3u8 : List Nat → Option Int → String → List Format)
    (kind at' : Option String) (link : RawLink) (u : List Nat)
    (hu : link.Uri = some u) (hok : urlOk u = true) :
    processLinkR sha256 decBlock f4m m3u8 kind at' link =
      LinkResult.ok (dispatchLink f4m m3u8 kind at' link u) := by
  rw [processLinkR]
  have hne : ¬ (u = []) := urlOk_ne_nil hok
  simp [hu, hne, url_or_none, hok]

/-- Inversion: a link that emitted formats did so on a URI that passed
validation. -/
theorem processLinkR_ok_inv (sha256 : List Nat → List Nat)
    (decBlock : List Nat → List Nat → List Nat)
    (f4m m3u8 : List Nat → Option Int → String → List Format)
    (kind at' : Option String) (link : RawLink) (fs : List Format)
    (h : processLinkR sha256 decBlock f4m m3u8 kind at' link = LinkResult.ok fs) :
    ∃ u, urlOk u = true ∧ fs = dispatchLink f4m m3u8 kind at' link u := by
  rw [processLinkR] at h
  split at h
  · split at h
    · simp at h
    · next u' hv =>
      cases h
      exact ⟨u', (url_or_none_some hv).2, rfl⟩
  · split at h
    · simp at h
    · split at h
      · simp at h
      · split at h
        · simp at h
        · split at h
          · simp at h
          · next u' hv =>
            cases h
            exact ⟨u', (url_or_none_some hv).2, rfl⟩

/-- Suffix test on strings via character lists (used to state the
"formatId ends with ..." scenarios). -/
def strEndsWith (s suf : String) : Bool := suf.data.isSuffixOf s.data

/-- C5 (amended): the Direct branch emits one format whose id is the link
target (or the empty string), suffixed "-<assetTarget>" exactly for the
three alternate-audience targets, with preference -1 for those, +1 for
Default and none otherwise; the "-<bitrate>" suffix is appended when the
bitrate is present AND non-zero (Python truthiness: bitrate 0 gets no
suffix). -/
theorem direct_format_rules (sha256 : List Nat → List Nat)
    (decBlock : List Nat → List Nat → List Nat)
    (f4m m3u8 : List Nat → Option Int → String → List Format)
    (kind at' : Option String) (link : RawLink) (u : List Nat)
    (hu : link.Uri = some u) (hok : urlOk u = true)
    (hhds : ¬ (link.Target = some "HDS")) (hhls : ¬ (link.Target = some "HLS")) :
    processLinkR sha256 decBlock f4m m3u8 kind at' link =
      LinkResult.ok [directFormat kind link (baseFormatId link.Target at')
        (assetPreference at') u]
    ∧ (isAltTarget at' = true →
        assetPreference at' = some (-1) ∧
        baseFormatId link.Target at' = (link.Target.getD "") ++ ("-" ++ at'.getD ""))
    ∧ (at' = some "Default" →
        assetPreference at' = some 1 ∧ baseFormatId link.Target at' = link.Target.getD "")
    ∧ (isAltTarget at' = false → ¬ (at' = some "Default") →
        assetPreference at' = none ∧ baseFormatId link.Target at' = link.Target.getD "")
    ∧ (∀ b : Nat, link.Bitrate = some b → ¬ (b = 0) →
        (directFormat kind link (baseFormatId link.Target at')
          (assetPreference at') u).format_id
          = baseFormatId link.Target at' ++ "-" ++ toString b)
    ∧ (link.Bitrate = some 0 →
        (directFormat kind link (baseFormatId link.Target at')
          (assetPreference at') u).format_id
          = baseFormatId link.Target at')
    ∧ (directFormat kind link (baseFormatId link.Target at')
        (assetPreference at') u).preference = assetPreference at' := by
  refine ⟨?_, ?_, ?_, ?_, ?_, ?_, ?_⟩
  · rw [processLinkR_plain_uri sha256 decBlock f4m m3u8 kind at' link u hu hok]
    rw [dispatchLink]
    simp [hhds, hhls]
  · intro halt
    constructor
    · rw [assetPreference, if_pos halt]
    · rw [baseFormatId, if_pos halt]
  · intro hdef
    have halt : isAltTarget at' = false := by rw [hdef]; rfl
    constructor
    · rw [assetPreference, if_neg (by simp [halt]), if_pos hdef]
    · rw [baseFormatId, if_neg (by simp [halt])]
      simp
  · intro halt hdef
    constructor
    · rw [assetPreference, if_neg (by simp [halt]), if_neg hdef]
    · rw [baseFormatId, if_neg (by simp [halt])]
      simp
  · intro b hb hb0
    rw [directFormat]
    simp [hb, hb0]
  · intro hb
    rw [directFormat]
    simp [hb]
  · rw [directFormat]

/-- The SignLanguage / Direct / bitrate-750 scenario link. -/
def link750 : RawLink :=
  { Uri := some (strBytes "http://host/v.mp4"), EncryptedUri := none,
    Target := some "Download", Bitrate := some 750, FileFormat := some "mp4" }

/-- The format the scenario link should produce. -/
def fmt750 : Format :=
  { url := strBytes "http://host/v.mp4", format_id := "Download-SignLanguage-750",
    tbr := some 750, ext := some "mp4", vcodec := none, preference := some (-1) }

theorem direct_format_rules_witness :
    processLinkR (fun _ => []) (fun _ b => b) (fun _ _ _ => []) (fun _ _ _ => [])
      (some "VideoResource") (some "SignLanguage") link750 = LinkResult.ok [fmt750]
    ∧ strEndsWith "Download-SignLanguage-750" "-SignLanguage-750" = true := by
  constructor
  · have h := (direct_format_rules (fun _ => []) (fun _ b => b) (fun _ _ _ => [])
      (fun _ _ _ => []) (some "VideoResource") (some "SignLanguage") link750
      (strBytes "http://host/v.mp4") rfl (by decide) (by decide) (by decide)).1
    rw [h]
    decide
  · decide

/-- A Direct link with bitrate 0 (present but falsy in Python). -/
def link0 : RawLink :=
  { Uri := some (strBytes "http://host/v.mp4"), EncryptedUri := none,
    Target := some "Download", Bitrate := some 0, FileFormat := some "mp4" }

/-- The format the bitrate-0 link produces: no "-0" suffix. -/
def fmt0 : Format :=
  { url := strBytes "http://host/v.mp4", format_id := "Download-SignLanguage",
    tbr := some 0, ext := some "mp4", vcodec := none, preference := some (-1) }

/-- Counterexample to C5 as stated: a Direct link with bitrate present but
equal to 0 gets NO "-<bitrate>" suffix. -/
theorem direct_format_bitrate_zero_no_suffix :
    processLinkR (fun _ => []) (fun _ b => b) (fun _ _ _ => []) (fun _ _ _ => [])
      (some "VideoResource") (some "SignLanguage") link0 = LinkResult.ok [fmt0]
    ∧ strEndsWith "Download-SignLanguage" "-0" = false := by
  exact ⟨by decide, by decide⟩

/-- C6: for AudioResource assets every format from an HDS/F4M link has
vcodec forced to "none" (the delegate result is mapped), and a Direct-link
format gets vcodec "none"; HLS delegate results are passed through with no
codec override, and non-AudioResource HDS results are left untouched. -/
theorem audio_vcodec_none (sha256 : List Nat → List Nat)
    (decBlock : List Nat → List Nat → List Nat)
    (f4m m3u8 : List Nat → Option Int → String → List Format)
    (kind at' : Option String) (link : RawLink) (u : List Nat)
    (hu : link.Uri = some u) (hok : urlOk u = true) :
    (link.Target = some "HDS" → kind = some "AudioResource" →
      processLinkR sha256 decBlock f4m m3u8 kind at' link =
        LinkResult.ok ((f4m (u ++ hdsQuery) (assetPreference at')
          (baseFormatId link.Target at')).map (fun f => { f with vcodec := some "none" }))
      ∧ ∀ f ∈ (processLinkR sha256 decBlock f4m m3u8 kind at' link).formats,
          f.vcodec = some "none")
    ∧ (link.Target = some "HDS" → ¬ (kind = some "AudioResource") →
      processLinkR sha256 decBlock f4m m3u8 kind at' link =
        LinkResult.ok (f4m (u ++ hdsQuery) (assetPreference at')
          (baseFormatId link.Target at')))
    ∧ (link.Target = some "HLS" →
      processLinkR sha256 decBlock f4m m3u8 kind at' link =
        LinkResult.ok (m3u8 u (assetPreference at') (baseFormatId link.Target at')))
    ∧ (¬ (link.Target = some "HDS") → ¬ (link.Target = some "HLS") →
        kind = some "AudioResource" →
      ∀ f ∈ (processLinkR sha256 decBlock f4m m3u8 kind at' link).formats,
          f.vcodec = some "none") := by
  have hbase := processLinkR_plain_uri sha256 decBlock f4m m3u8 kind at' link u hu hok
  refine ⟨?_, ?_, ?_, ?_⟩
  · intro hhds haud
    have hres : processLinkR sha256 decBlock f4m m3u8 kind at' link =
        LinkResult.ok ((f4m (u ++ hdsQuery) (assetPreference at')
          (baseFormatId link.Target at')).map
            (fun f => { f with vcodec := some "none" })) := by
      rw [hbase, dispatchLink]
      simp [hhds, haud]
    refine ⟨hres, ?_⟩
    intro f hf
    rw [hres] at hf
    simp only [LinkResult.formats, List.mem_map] at hf
    rcases hf with ⟨g, _, rfl⟩
    rfl
  · intro hhds haud
    rw [hbase, dispatchLink]
    simp [hhds, haud]
  · intro hhls
    have hhds : ¬ (link.Target = some "HDS") := by
      rw [hhls]
      simp
    rw [hbase, dispatchLink]
    simp [hhds, hhls]
  · intro hhds hhls haud
    have hres : processLinkR sha256 decBlock f4m m3u8 kind at' link =
        LinkResult.ok [directFormat kind link (baseFormatId link.Target at')
          (assetPreference at') u] := by
      rw [hbase, dispatchLink]
      simp [hhds, hhls]
    intro f hf
    rw [hres] at hf
    simp only [LinkResult.formats, List.mem_singleton] at hf
    subst hf
    rw [directFormat]
    simp [haud]

/-- An f4m delegate stub that reports an avc1 video codec, to exercise the
audio override. -/
def f4mStub : List Nat → Option Int → String → List Format :=
  fun u p fid =>
    [{ url := u, format_id := fid, tbr := some 100, ext := some "flv",
       vcodec := some "avc1", preference := p },
     { url := u, format_id := fid, tbr := some 200, ext := some "flv",
       vcodec := none, preference := p }]

/-- An HDS link with a plain URI. -/
def hdsLink : RawLink :=
  { Uri := some (strBytes "http://host/m.f4m"), EncryptedUri := none,
    Target := some "HDS", Bitrate := none, FileFormat := none }

theorem audio_vcodec_none_witness :
    processLinkR (fun _ => []) (fun _ b => b) f4mStub (fun _ _ _ => [])
      (some "AudioResource") (some "Default") hdsLink =
      LinkResult.ok ((f4mStub (strBytes "http://host/m.f4m" ++ hdsQuery) (some 1)
        "HDS").map (fun f => { f with vcodec := some "none" }))
    ∧ ((processLinkR (fun _ => []) (fun _ b => b) f4mStub (fun _ _ _ => [])
        (some "AudioResource") (some "Default") hdsLink).formats.all
          (fun f => f.vcodec == some "none")) = true := by
  have h := (audio_vcodec_none (fun _ => []) (fun _ b => b) f4mStub (fun _ _ _ => [])
    (some "AudioResource") (some "Default") hdsLink (strBytes "http://host/m.f4m")
    rfl (by decide)).1 rfl rfl
  constructor
  · rw [h.1]
    decide
  · rw [List.all_eq_true]
    intro f hf
    have := h.2 f hf
    rw [this]
    rfl

/-- C9: a URI that passed validation is non-empty, so every format emitted
by the Direct branch carries a validated, non-empty url. -/
theorem direct_url_nonempty (sha256 : List Nat → List Nat)
    (decBlock : List Nat → List Nat → List Nat)
    (f4m m3u8 : List Nat → Option Int → String → List Format)
    (kind at' : Option String) (link : RawLink) (fs : List Format)
    (h : processLinkR sha256 decBlock f4m m3u8 kind at' link = LinkResult.ok fs) :
    (∀ (u0 : Option (List Nat)) (u : List Nat),
        url_or_none u0 = some u → urlOk u = true ∧ ¬ (u = []))
    ∧ (¬ (link.Target = some "HDS") → ¬ (link.Target = some "HLS") →
        ∀ f ∈ fs, urlOk f.url = true ∧ ¬ (f.url = [])) := by
  constructor
  · intro u0 u hv
    have hs := url_or_none_some hv
    exact ⟨hs.2, urlOk_ne_nil hs.2⟩
  · intro hhds hhls f hf
    rcases processLinkR_ok_inv sha256 decBlock f4m m3u8 kind at' link fs h with
      ⟨u, hok, rfl⟩
    rw [dispatchLink] at hf
    simp only [if_neg hhds, if_neg hhls] at hf
    rcases List.mem_singleton.mp hf with rfl
    rw [directFormat]
    exact ⟨hok, urlOk_ne_nil hok⟩

/-- A good direct link used by witnesses. -/
def cexGoodLink : RawLink :=
  { Uri := some (strBytes "http://host/f.mp4"), EncryptedUri := none,
    Target := some "Download", Bitrate := some 100, FileFormat := some "mp4" }

/-- The format cexGoodLink produces. -/
def cexGoodFmt : Format :=
  { url := strBytes "http://host/f.mp4", format_id := "Download-100",
    tbr := some 100, ext := some "mp4", vcodec := none, preference := some 1 }

theorem direct_url_nonempty_witness :
    urlOk cexGoodFmt.url = true ∧ ¬ (cexGoodFmt.url = []) := by
  have hp : processLinkR (fun _ => []) (fun _ b => b) (fun _ _ _ => []) (fun _ _ _ => [])
      (some "VideoResource") (some "Default") cexGoodLink =
        LinkResult.ok [cexGoodFmt] := by decide
  exact (direct_url_nonempty (fun _ => []) (fun _ b => b) (fun _ _ _ => [])
    (fun _ _ _ => []) (some "VideoResource") (some "Default") cexGoodLink
    [cexGoodFmt] hp).2 (by decide) (by decide) cexGoodFmt (by decide)

/-- The declared language of a subtitle reference, Python falsiness
included: a missing or empty declaration counts as undeclared. -/
def declaredLang (s : RawSubtitle) : String :=
  match s.Language with
  | none => "da"
  | some l => if l = "" then "da" else l

/-- C8: the subtitle collector keeps exactly the references with a
resolvable URL, in declaration order (per resolved code as well, since the
list keeps declaration order); the code is the declared name mapped through
the static table (Danish → da, unknown names pass through, default "da"),
and the extension is derived from the MIME type with default "vtt". -/
theorem collectSubs_spec (subs : List RawSubtitle) :
    collectSubs subs = subs.filterMap (fun s =>
      (url_or_none s.Uri).map (fun u =>
        ((LANGS.lookup (declaredLang s)).getD (declaredLang s),
          SubEntry.mk u ((mimetype2ext s.MimeType).getD "vtt"))))
    ∧ LANGS.lookup "Danish" = some "da"
    ∧ LANGS.lookup "English" = none := by
  refine ⟨?_, rfl, rfl⟩
  induction subs with
  | nil => rfl
  | cons s rest ih =>
    rcases h : url_or_none s.Uri with _ | u
    · simp [collectSubs, h, List.filterMap_cons, ih]
    · simp [collectSubs, h, List.filterMap_cons, ih, declaredLang]
